import Mathlib

/-!
Shallow embedding of the geolyze analysis core (`src/api/services` and the
serialisation helpers of `src/api/workers/analysis_worker.py`), together with
theorems checking the natural-language specification against it.

Conventions used throughout:
* machine floats are modelled as exact rationals (`ℚ`); transcendental
  library calls (`log1p`, PCA, UMAP, k-means, Welch's t-test) are out of the
  embedded core per the spec ("does not implement its own linear-algebra
  kernels ... or statistical-test internals") and enter as explicit oracle
  parameters;
* a Python `dict` with insertion order is an association list;
* a pandas `DataFrame` is a `Frame`: ordered row labels paired with rows of
  rationals, plus the ordered column labels;
* a Python `raise` is `Except.error`.
-/

namespace Geolyze

/-! ## Data detector (`src/api/services/data_detector.py`)

`DataDetector.detect` keeps a signed score.  The regex keyword scan over the
flattened metadata and the sparsity computation enter as signals: `kwMatch`
is the result of `_SC_KEYWORDS.search`, and `sparsity` is `some s` when
`(expression == 0).sum().sum() / expression.size` evaluates to `s`, `none`
when that computation raises (the `except: pass` branch). -/

def detect (kwMatch : Bool) (nSamples : ℕ) (sparsity : Option ℚ) : String :=
  let score : ℤ := 0
  let score := if kwMatch then score + 3 else score
  let score :=
    if nSamples > 500 then score + 2
    else if nSamples > 100 then score + 1
    else if nSamples ≤ 30 then score - 2
    else score
  let score :=
    match sparsity with
    | some s => if s > 7/10 then score + 1 else score
    | none => score
  if score ≥ 2 then "single_cell" else "bulk"

/-- The score as the claim describes it: a plain sum of the three
independent signal contributions. -/
def detectScore (kwMatch : Bool) (nSamples : ℕ) (sparsity : Option ℚ) : ℤ :=
  (if kwMatch then 3 else 0)
  + (if nSamples > 500 then 2
     else if nSamples > 100 then 1
     else if nSamples ≤ 30 then -2
     else 0)
  + (match sparsity with
     | some s => if s > 7/10 then 1 else 0
     | none => 0)

/-! ## Single-cell cluster count (`single_cell_pipeline.py`, step 6)

`n_clusters = min(max(2, int(np.sqrt(data.shape[0] / 10))), 20)`.  For a
natural `n`, `int(np.sqrt(n / 10))` is the floor of the real square root of
`n / 10`, which is the integer square root of `⌊n / 10⌋` (taking the floor
under the square root commutes with the outer floor).  `isqrt` computes it
as the largest `k ≤ m` with `k * k ≤ m`; `isqrt_eq_sqrt` below identifies
it with Mathlib's `Nat.sqrt`. -/

def isqrt (m : ℕ) : ℕ :=
  ((List.range (m + 1)).filter (fun k => k * k ≤ m)).foldr max 0

def nClusters (nCells : ℕ) : ℕ :=
  min (max 2 (isqrt (nCells / 10))) 20

/-- The cluster-count formula as the spec words it:
`clamp(round(sqrt(sample_count / 10)), 2, 20)`.  Rounding half up,
`round (sqrt m) = ⌊(sqrt (4 * m) + 1) / 2⌋` for a natural `m`. -/
def nClustersSpec (nCells : ℕ) : ℕ :=
  min (max 2 ((isqrt (4 * (nCells / 10)) + 1) / 2)) 20

/-! ## Condition inference (`bulk_pipeline.py`, `_infer_conditions`)

The two regex families are modelled character-for-character.  Every keyword
alternative in `_PATTERNS` is one of three shapes:
* `\bKW\b` — a whole word (`control`, `normal`, `healthy`, `wt`, `disease`,
  `tumor`/`tumour` for `tumou?r`, `cancer`, `ko`, `mutant`);
* `\bPRE.?POST\b` — two fragments with one optional arbitrary non-newline
  character between (`wild.?type`, `knock.?out`);
* `\bPRE\w*\b` — a word-initial prefix (`treat\w*`): since `\w*` is greedy
  up to the next boundary, this matches iff `PRE` occurs right after a word
  boundary.
`\b` at the start of a keyword of word characters holds iff the previous
character is absent or a non-word character, and symmetrically at the end;
`\w` is alphanumeric or underscore (ASCII suffices for these patterns). -/

def isWordChar (c : Char) : Bool := c.isAlphanum || c == '_'

/-- `\b` before the scanner's current position, given the previous character. -/
def boundaryBefore : Option Char → Bool
  | none => true
  | some c => !isWordChar c

/-- `\b` after a matched fragment, given the remaining text. -/
def boundaryAfter : List Char → Bool
  | [] => true
  | c :: _ => !isWordChar c

/-- Does the hit predicate fire at the current position or any later one?
`prev` is the character just before the current position. -/
def scanText (hit : Option Char → List Char → Bool) :
    Option Char → List Char → Bool
  | prev, text =>
    hit prev text ||
      match text with
      | [] => false
      | c :: rest => scanText hit (some c) rest

/-- `\bKW\b` fires at the current position. -/
def wordHitAt (kw : List Char) (prev : Option Char) (text : List Char) : Bool :=
  boundaryBefore prev && kw.isPrefixOf text && boundaryAfter (text.drop kw.length)

/-- `\bPRE\w*\b` fires at the current position (greedy `\w*` always reaches
the next boundary, so only the leading boundary and the prefix matter). -/
def prefixHitAt (pre : List Char) (prev : Option Char) (text : List Char) : Bool :=
  boundaryBefore prev && pre.isPrefixOf text

/-- `\bPRE.?POST\b` fires at the current position: `PRE` then optionally one
arbitrary character other than a newline, then `POST`, flanked by boundaries. -/
def optCharHitAt (pre post : List Char) (prev : Option Char) (text : List Char) : Bool :=
  boundaryBefore prev && pre.isPrefixOf text &&
    (let rest := text.drop pre.length
     (post.isPrefixOf rest && boundaryAfter (rest.drop post.length)) ||
       match rest with
       | [] => false
       | c :: rest2 =>
         !(c == '\n') && post.isPrefixOf rest2 && boundaryAfter (rest2.drop post.length))

/-- `re.search` of `\bcontrol\b|\bnormal\b|\bhealthy\b|\bwild.?type\b|\bwt\b`. -/
def searchControl (text : List Char) : Bool :=
  scanText
    (fun prev t =>
      wordHitAt "control".toList prev t || wordHitAt "normal".toList prev t ||
        wordHitAt "healthy".toList prev t ||
        optCharHitAt "wild".toList "type".toList prev t ||
        wordHitAt "wt".toList prev t)
    none text

/-- `re.search` of
`\btreat\w*\b|\bdisease\b|\btumou?r\b|\bcancer\b|\bknock.?out\b|\bko\b|\bmutant\b`.
`\btumou?r\b` is the two whole words `tumor` and `tumour`. -/
def searchTreated (text : List Char) : Bool :=
  scanText
    (fun prev t =>
      prefixHitAt "treat".toList prev t || wordHitAt "disease".toList prev t ||
        wordHitAt "tumor".toList prev t || wordHitAt "tumour".toList prev t ||
        wordHitAt "cancer".toList prev t ||
        optCharHitAt "knock".toList "out".toList prev t ||
        wordHitAt "ko".toList prev t || wordHitAt "mutant".toList prev t)
    none text

/-- The `for pattern, label in _PATTERNS: ... break` loop: the control family
is scanned first, the treated family second; the first family that matches
wins. -/
def matchFamilies (text : List Char) : Option String :=
  if searchControl text then some "control"
  else if searchTreated text then some "treated"
  else none

/-- One GSM entry of the GEOparse `gse.gsms` mapping: its name, its `title`
metadata field and its `characteristics_ch1` list. -/
structure GSM where
  name : String
  title : String
  characteristics : List String
deriving DecidableEq

/-- `f"{title} {' '.join(chars)}".lower()` (ASCII lowering, as all keywords
are ASCII). -/
def gsmText (g : GSM) : List Char :=
  ((g.title ++ " " ++ String.intercalate " " g.characteristics).toList).map
    Char.toLower

/-- The acceptance filter at the end of `_infer_conditions`: a non-empty
assignment is kept only with exactly two distinct labels, each covering at
least 2 samples; otherwise the empty assignment is returned. -/
def validateConditions (conds : List (String × String)) : List (String × String) :=
  if conds = [] then conds
  else if (conds.map Prod.snd).dedup.length ≠ 2 then []
  else if (conds.map Prod.snd).dedup.any
      (fun lbl => (conds.map Prod.snd).count lbl < 2) then []
  else conds

/-- `BulkPipeline._infer_conditions`.  `gse = none` models the `gse is None`
early return; otherwise the GSM entries are scanned in mapping order,
entries whose name is not among the sample names are skipped, and the first
matching family labels the sample. -/
def inferConditions (sampleNames : List String) (gse : Option (List GSM)) :
    List (String × String) :=
  match gse with
  | none => []
  | some gsms =>
    let conds := gsms.foldl
      (fun acc g =>
        if g.name ∈ sampleNames then
          match matchFamilies (gsmText g) with
          | some label => acc ++ [(g.name, label)]
          | none => acc
        else acc)
      []
    validateConditions conds

/-! ## Expression frames

A pandas `DataFrame` of rationals: ordered column labels, and rows as
(row label, entries) pairs.  `shape = (rows.length, colNames.length)`;
well-formedness says every row has one entry per column.  Filtering rows
keeps the column axis, exactly as `df.loc[mask]` does. -/

structure Frame where
  colNames : List String
  rows : List (String × List ℚ)
deriving DecidableEq

namespace Frame

def nRows (f : Frame) : ℕ := f.rows.length

def nCols (f : Frame) : ℕ := f.colNames.length

def WF (f : Frame) : Prop := ∀ r ∈ f.rows, r.2.length = f.nCols

instance (f : Frame) : Decidable f.WF := by
  unfold WF; infer_instance

/-- `df.T`: labels swap axes; entry `(i, j)` of the transpose is entry
`(j, i)` of the original (`getD` with default 0 only ever fires outside the
well-formed rectangle). -/
def transpose (f : Frame) : Frame where
  colNames := f.rows.map Prod.fst
  rows := f.colNames.enum.map
    (fun jc => (jc.2, f.rows.map (fun r => r.2.getD jc.1 0)))

/-- Column `j` as a list (one entry per row). -/
def col (f : Frame) (j : ℕ) : List ℚ :=
  f.rows.map (fun r => r.2.getD j 0)

/-- `df.sum(axis=0)`: per-column sums. -/
def colSums (f : Frame) : List ℚ :=
  (List.range f.nCols).map (fun j => (f.col j).sum)

/-- Keep the rows satisfying the predicate (`df.loc[mask]`). -/
def filterRows (f : Frame) (p : String × List ℚ → Bool) : Frame where
  colNames := f.colNames
  rows := f.rows.filter p

/-- Keep the columns whose index satisfies the mask (`df.loc[:, mask]`). -/
def filterCols (f : Frame) (mask : ℕ → Bool) : Frame where
  colNames := (f.colNames.enum.filter (fun jc => mask jc.1)).map Prod.snd
  rows := f.rows.map
    (fun r => (r.1, (r.2.enum.filter (fun je => mask je.1)).map Prod.snd))

/-- Apply a scalar function entrywise (`np.log1p(df)` and friends). -/
def mapEntries (f : Frame) (g : ℚ → ℚ) : Frame where
  colNames := f.colNames
  rows := f.rows.map (fun r => (r.1, r.2.map g))

end Frame

/-- `(row > 0).sum()`: how many entries of a list are positive. -/
def countPos (l : List ℚ) : ℕ := l.countP (fun x => 0 < x)

/-! ## Bulk QC and normalization (`bulk_pipeline.py`, steps 1–2) -/

/-- Step 1 of `BulkPipeline.run`: drop genes (rows) with total 0 or fewer, then
genes detected in fewer than `min(3, n_samples)` samples.  Raises
(`ValueError`) when fewer than 10 genes survive.  Returns the filtered frame.
Note that only the gene axis is filtered and only the gene count is checked:
bulk samples are never dropped and their count is never tested. -/
def bulkFilter (data : Frame) : Frame :=
  let d1 := data.filterRows (fun r => 0 < r.2.sum)
  d1.filterRows (fun r => min 3 d1.nCols ≤ countPos r.2)

def bulkQC (data : Frame) : Except String Frame :=
  if (bulkFilter data).nRows < 10 then
    .error "Too few genes after filtering"
  else
    .ok (bulkFilter data)

/-- Step 2 of `BulkPipeline.run`: column sums with zeros replaced by 1, each
column divided by its sum and scaled by 1e6 (counts per million).  The
subsequent `log1p` is an entrywise `Frame.mapEntries` with the oracle for
`np.log1p`. -/
def cpmNormalize (data : Frame) : Frame where
  colNames := data.colNames
  rows := data.rows.map
    (fun r =>
      (r.1,
        (r.2.zip (data.colSums.map (fun s => if s = 0 then 1 else s))).map
          (fun xs => xs.1 / xs.2 * 1000000)))

/-! ## Single-cell orientation, QC and normalization
(`single_cell_pipeline.py`, steps 0–2) -/

/-- The orientation step at the top of `SingleCellPipeline.run`: transpose
iff the frame has strictly fewer rows than columns, so that rows are cells. -/
def scOrient (expression : Frame) : Frame :=
  if expression.nRows < expression.nCols then expression.transpose
  else expression

/-- Step 1 of `SingleCellPipeline.run` on the oriented frame (rows = cells,
columns = genes): drop cells expressing fewer than `min(200, int(0.05 * n_genes))`
genes, then genes expressed in fewer than
`min(3, max(1, int(0.01 * n_cells)))` of the remaining cells.  Raises when
fewer than 10 cells or fewer than 10 genes survive. -/
def scFilter (data : Frame) : Frame :=
  let minGenes := min 200 (data.nCols * 5 / 100)
  let d1 := data.filterRows (fun r => minGenes ≤ countPos r.2)
  let minCells := min 3 (max 1 (d1.nRows / 100))
  d1.filterCols (fun j => minCells ≤ countPos (d1.col j))

def scQC (data : Frame) : Except String Frame :=
  if (scFilter data).nRows < 10 ∨ (scFilter data).nCols < 10 then
    .error "Too few cells or genes after filtering"
  else
    .ok (scFilter data)

/-- Step 2 of `SingleCellPipeline.run`: row sums with zeros replaced by 1,
each row divided by its sum and scaled by 1e4. -/
def scNormalize (data : Frame) : Frame where
  colNames := data.colNames
  rows := data.rows.map
    (fun r =>
      let s := if r.2.sum = 0 then 1 else r.2.sum
      (r.1, r.2.map (fun x => x / s * 10000)))

/-! ## Benjamini–Hochberg correction
(`statsmodels.stats.multitest.multipletests(..., method="fdr_bh")`)

The library routine, embedded step for step in exact arithmetic: argsort the
p-values ascending, scale the k-th smallest (0-based `k`) by `n / (k+1)`,
take the running minimum from the largest rank down, clip at 1, and undo the
sort.  Ties are broken arbitrarily by the argsort (numpy's default quicksort
is unstable), so any sort is faithful; tied p-values receive equal adjusted
values either way. -/

/-- Ordering of index-tagged p-values by value: the argsort key. -/
def sndLe (a b : ℕ × ℚ) : Prop := a.2 ≤ b.2

instance : DecidableRel sndLe := fun a b => inferInstanceAs (Decidable (a.2 ≤ b.2))

instance : IsTotal (ℕ × ℚ) sndLe := ⟨fun a b => le_total a.2 b.2⟩

instance : IsTrans (ℕ × ℚ) sndLe := ⟨fun _ _ _ => le_trans⟩

/-- Scale the value at (0-based) position `k` by `n / (k + 1)`, keeping the
original-index tag of each pair. -/
def bhScale (n : ℕ) : ℕ → List (ℕ × ℚ) → List (ℕ × ℚ)
  | _, [] => []
  | k, (i, p) :: rest => (i, p * n / (k + 1)) :: bhScale n (k + 1) rest

/-- `np.minimum.accumulate` applied from the right: position `k` receives
the minimum of the values at positions `k` and later.  Index tags stay with
their positions. -/
def cumMinRev : List (ℕ × ℚ) → List (ℕ × ℚ)
  | [] => []
  | (i, q) :: rest =>
    match cumMinRev rest with
    | [] => [(i, q)]
    | (i2, q2) :: t => (i, min q q2) :: (i2, q2) :: t

/-- The full `fdr_bh` adjusted p-value vector, in the input order. -/
def fdrBH (ps : List ℚ) : List ℚ :=
  let sortedPairs := List.insertionSort sndLe ps.enum
  let clipped := (cumMinRev (bhScale ps.length 0 sortedPairs)).map
    (fun iq => (iq.1, min iq.2 1))
  (List.range ps.length).map
    (fun j => ((clipped.find? (fun iq => iq.1 = j)).map Prod.snd).getD 1)

/-! ## Bulk differential expression (`bulk_pipeline.py`, step 5)

Welch's t-test is an oracle: for a gene's two value vectors it either raises
(`none`, the `except Exception: continue` branch skips the gene) or returns
a `(t, p)` pair in which either component may be NaN (`none`, defaulted to
0.0 and 1.0 respectively).  BH correction may also raise
(`bhFails = true`), in which case every `padj` falls back to the raw
p-value. -/

/-- One row of the bulk DE table. -/
structure DERecord where
  gene : String
  log2fc : ℚ
  pvalue : ℚ
  t_stat : ℚ
  mean_a : ℚ
  mean_b : ℚ
  group_a : String
  group_b : String
  padj : ℚ
deriving DecidableEq

/-- Ordering of DE records by raw p-value (`sort(key=lambda x: x["pvalue"])`). -/
def pvalLe (a b : DERecord) : Prop := a.pvalue ≤ b.pvalue

instance : DecidableRel pvalLe :=
  fun a b => inferInstanceAs (Decidable (a.pvalue ≤ b.pvalue))

instance : IsTotal DERecord pvalLe := ⟨fun a b => le_total a.pvalue b.pvalue⟩

instance : IsTrans DERecord pvalLe := ⟨fun _ _ _ => le_trans⟩

/-- `round(x, 4)` (rounding to nearest, half away from even ties ignored:
the claims never inspect rounded values). -/
def round4 (q : ℚ) : ℚ := (round (q * 10000) : ℤ) / 10000

def listMean (l : List ℚ) : ℚ := l.sum / l.length

/-- The `groups.setdefault(cond, []).append(sample)` loop: group labels in
first-occurrence order, each with its samples in input order. -/
def groupsOf (conds : List (String × String)) : List (String × List String) :=
  conds.foldl
    (fun acc sc =>
      if acc.any (fun g => g.1 = sc.2) then
        acc.map (fun g => if g.1 = sc.2 then (g.1, g.2 ++ [sc.1]) else g)
      else acc ++ [(sc.2, [sc.1])])
    []

/-- The per-gene loop body over `data.index`, reading the gene's values for
the two sample groups from the log-normalized frame and calling the t-test
oracle; a raising test (`none`) skips the gene, NaN components default. -/
def mkDeRows (logcpm : Frame) (sampleIdx : String → ℕ)
    (ttest : List ℚ → List ℚ → Option (Option ℚ × Option ℚ))
    (g1 g2 : String × List String) : List DERecord :=
  logcpm.rows.filterMap
    (fun r =>
      let g1vals := g1.2.map (fun s => r.2.getD (sampleIdx s) 0)
      let g2vals := g2.2.map (fun s => r.2.getD (sampleIdx s) 0)
      match ttest g1vals g2vals with
      | none => none
      | some tp =>
        some
          { gene := r.1
            log2fc := round4 (listMean g2vals - listMean g1vals)
            pvalue := (tp.2).getD 1
            t_stat := (tp.1).getD 0
            mean_a := round4 (listMean g1vals)
            mean_b := round4 (listMean g2vals)
            group_a := g1.1
            group_b := g2.1
            padj := 0 })

/-- Attach adjusted p-values: `r["padj"] = adj_pvals[i]` positionally, or the
raw p-value for every record when the correction raises. -/
def attachPadj (recs : List DERecord) (bhFails : Bool) : List DERecord :=
  if bhFails then recs.map (fun r => { r with padj := r.pvalue })
  else (recs.zip (fdrBH (recs.map DERecord.pvalue))).map
    (fun rp => { rp.1 with padj := rp.2 })

/-- The full DE table for two accepted groups, adjusted and sorted ascending
by raw p-value (`de_results.sort(key=lambda x: x["pvalue"])`). -/
def bulkDeTable (logcpm : Frame) (sampleIdx : String → ℕ)
    (ttest : List ℚ → List ℚ → Option (Option ℚ × Option ℚ))
    (bhFails : Bool) (g1 g2 : String × List String) : List DERecord :=
  List.insertionSort pvalLe (attachPadj (mkDeRows logcpm sampleIdx ttest g1 g2) bhFails)

/-- Step 5 of `BulkPipeline.run`: the gate and the table.  Returns `none`
(no `de_results` key) unless the inferred conditions form exactly two
groups, both groups have at least 2 samples, and at least one gene's test
did not raise; otherwise the sorted table truncated to the top 500. -/
def bulkDeStage (logcpm : Frame) (sampleIdx : String → ℕ)
    (ttest : List ℚ → List ℚ → Option (Option ℚ × Option ℚ))
    (bhFails : Bool) (conditions : List (String × String)) :
    Option (List DERecord) :=
  if conditions ≠ [] ∧ (conditions.map Prod.snd).dedup.length = 2 then
    match groupsOf conditions with
    | g1 :: g2 :: _ =>
      if 2 ≤ g1.2.length ∧ 2 ≤ g2.2.length then
        if mkDeRows logcpm sampleIdx ttest g1 g2 ≠ [] then
          some ((bulkDeTable logcpm sampleIdx ttest bhFails g1 g2).take 500)
        else none
      else none
    | _ => none
  else none

/-! ## Single-cell marker tests (`single_cell_pipeline.py`, step 7)

The inner per-gene loop for one cluster (the `for gene in top_genes[:10]`
loop): each of the cluster's top fold-change genes is Welch-tested against
the rest of the cells; the `except Exception: continue` catches a raising
test locally and skips the gene, and a NaN p-value or statistic defaults
to 1.0 / 0.0.  The upstream selection — k-means mask, per-gene means and
`nlargest(20)` fold-change ranking — feeds the loop through `topGenes`,
the per-gene value vectors and the fold-change map. -/

/-- One record of the single-cell marker DE table. -/
structure SCMarkerRecord where
  cluster : String
  gene : String
  log2fc : ℚ
  pvalue : ℚ
  score : ℚ
deriving DecidableEq

/-- Lines 169–186 of `SingleCellPipeline.run`: the per-gene marker test
loop for cluster `c`.  `clusterVals`/`otherVals` read the gene's column of
the normalized frame restricted to the cluster and to its complement. -/
def scMarkerRows (c : String) (topGenes : List String)
    (clusterVals otherVals : String → List ℚ) (fc : String → ℚ)
    (ttest : List ℚ → List ℚ → Option (Option ℚ × Option ℚ)) :
    List SCMarkerRecord :=
  (topGenes.take 10).filterMap
    (fun gene =>
      match ttest (clusterVals gene) (otherVals gene) with
      | none => none
      | some tp =>
        some { cluster := c
               gene := gene
               log2fc := fc gene
               pvalue := (tp.2).getD 1
               score := (tp.1).getD 0 })

/-! ## Pipeline runs

Both `run` methods, with the numeric library calls that the spec scopes out
(`np.log1p`, StandardScaler + PCA, UMAP, k-means, Welch's t-test) as oracle
parameters.  Stages the claims never touch (bulk PCA / correlation /
top-variable-genes, single-cell HVG detail, clustering labels, marker
genes) are absorbed by the oracles; everything the claims mention is
embedded. -/

/-- The fields of the bulk result dict that the claims inspect. -/
structure BulkResult where
  n_genes_raw : ℕ
  n_samples : ℕ
  n_genes_filtered : ℕ
  conditions : List (String × String)
  de_results : Option (List DERecord)
deriving DecidableEq

/-- `BulkPipeline.run`.  `log1p` is the entrywise log transform oracle,
`ttest` the Welch test oracle, `bhFails` the BH-correction failure switch. -/
def bulkRun (expression : Frame) (gse : Option (List GSM)) (log1p : ℚ → ℚ)
    (ttest : List ℚ → List ℚ → Option (Option ℚ × Option ℚ))
    (bhFails : Bool) : Except String BulkResult :=
  match bulkQC expression with
  | .error e => .error e
  | .ok data =>
    .ok
      { n_genes_raw := expression.nRows
        n_samples := expression.nCols
        n_genes_filtered := data.nRows
        conditions := inferConditions expression.colNames gse
        de_results :=
          bulkDeStage ((cpmNormalize data).mapEntries log1p)
            (fun s => expression.colNames.indexOf s) ttest bhFails
            (inferConditions expression.colNames gse) }

/-- The fields of the single-cell result dict that the claims inspect. -/
structure SCResult where
  n_cells_raw : ℕ
  n_genes_raw : ℕ
  n_cells_filtered : ℕ
  n_genes_filtered : ℕ
  pca_embeddings : List (List ℚ)
  umap_embeddings : List (List ℚ)
  n_clusters : ℕ
deriving DecidableEq

/-- `SingleCellPipeline.run` through step 6.  `pca` is the oracle for
HVG selection + StandardScaler + PCA (per-cell score rows);
`umapOutcome = none` models the UMAP call raising, `some u` its result. -/
def scRun (expression : Frame) (log1p : ℚ → ℚ)
    (pca : Frame → List (List ℚ)) (umapOutcome : Option (List (List ℚ))) :
    Except String SCResult :=
  match scQC (scOrient expression) with
  | .error e => .error e
  | .ok d =>
    .ok
      { n_cells_raw := (scOrient expression).nRows
        n_genes_raw := (scOrient expression).nCols
        n_cells_filtered := d.nRows
        n_genes_filtered := d.nCols
        pca_embeddings :=
          (pca ((scNormalize d).mapEntries log1p)).map (fun row => row.take 2)
        umap_embeddings :=
          umapOutcome.getD
            ((pca ((scNormalize d).mapEntries log1p)).map (fun row => row.take 2))
        n_clusters := nClusters d.nRows }

/-! ## Worker serialisation (`src/api/workers/analysis_worker.py`)

Python floats carry non-finite values, so here — and only here — the value
model is `PyFloat`, separating NaN and the two infinities from finite
rationals; a Python `None` (or a value `float()` rejects) is an absent
`Option`. -/

inductive PyFloat where
  | nan
  | inf
  | ninf
  | fin (q : ℚ)
deriving DecidableEq

/-- `np.isfinite`. -/
def PyFloat.isfinite : PyFloat → Bool
  | .fin _ => true
  | _ => false

/-- `round(f, 6)` (ties to even on the underlying binary float are modelled
as ties away from zero; no claim inspects rounded digits). -/
def round6 (q : ℚ) : ℚ := (round (q * 1000000) : ℤ) / 1000000

/-- `_safe_float`: `None` (and unconvertible values) stay `None`, non-finite
floats become `None`, finite floats are rounded to 6 decimals. -/
def safeFloat : Option PyFloat → Option PyFloat
  | none => none
  | some (.fin q) => some (.fin (round6 q))
  | some _ => none

/-- One group of scanpy's `rank_genes_groups` arrays as
`_extract_sc_de_genes` reads them; a missing `pvals`/`pvals_adj`/
`logfoldchanges` key is a list of `none`, matching `[None] * top_n`. -/
structure RGGroup where
  cluster : String
  names : List String
  scores : List (Option PyFloat)
  pvals : List (Option PyFloat)
  padj : List (Option PyFloat)
  logfc : List (Option PyFloat)

/-- One serialised single-cell DE record; numeric fields may in principle
hold any Python float, which is what the claim is about. -/
structure SCDERec where
  cluster : String
  gene : String
  score : Option PyFloat
  pvalue : Option PyFloat
  padj : Option PyFloat
  log2fc : Option PyFloat
deriving DecidableEq

/-- `_extract_sc_de_genes` with `top_n = 20`: `none` input models a result
without `rank_genes_groups`; otherwise each group contributes its first 20
names with `_safe_float`-converted statistics, and an empty record list is
emitted as `None`. -/
def scDeRecords (groups : List RGGroup) : List SCDERec :=
  groups.flatMap
    (fun g =>
      (List.range (g.names.take 20).length).map
        (fun i =>
          { cluster := g.cluster
            gene := (g.names.take 20).getD i ""
            score := safeFloat ((g.scores.take 20).getD i none)
            pvalue := safeFloat ((g.pvals.take 20).getD i none)
            padj := safeFloat ((g.padj.take 20).getD i none)
            log2fc := safeFloat ((g.logfc.take 20).getD i none) }))

/-- What `_extract_sc_de_genes` receives as `adata`.  Only an AnnData-like
object exposes the `uns` mapping; the plain dict the bundled
`SingleCellPipeline.run` actually returns has no `uns` attribute, so the
very first access `adata.uns` raises `AttributeError`. -/
inductive AdataLike where
  | dictResult
  | anndata (rgg : Option (List RGGroup))

/-- `_extract_sc_de_genes` with `top_n = 20`: the `adata.uns` access raises
on a dict result; on an AnnData-like object a missing `rank_genes_groups`
key yields `None`, an empty record list is emitted as `None`, and otherwise
the per-group records are built. -/
def extractScDeGenes : AdataLike → Except String (Option (List SCDERec))
  | .dictResult => .error "AttributeError: no attribute uns"
  | .anndata none => .ok none
  | .anndata (some groups) =>
    .ok (if scDeRecords groups = [] then none else some (scDeRecords groups))

/-- `df.replace({np.nan: None, np.inf: None, -np.inf: None})` on one cell. -/
def replaceNonfinite : Option PyFloat → Option PyFloat
  | some .nan => none
  | some .inf => none
  | some .ninf => none
  | v => v

/-- The bulk branch of step 6 of `_run_pipeline_sync`: a non-empty DE frame
(rows as field-name/value pairs) is truncated to its head 100 rows, every
non-finite cell replaced by `None`, and turned into records; an absent or
empty frame yields no `de_results` key. -/
def serializeBulkDe (de : Option (List (List (String × Option PyFloat)))) :
    Option (List (List (String × Option PyFloat))) :=
  match de with
  | none => none
  | some rows =>
    if rows = [] then none
    else
      some ((rows.take 100).map
        (fun row => row.map (fun kv => (kv.1, replaceNonfinite kv.2))))

/-! ## Plots payload (`plot_generator.py`, `sample_correlation_heatmap`,
and step 4 of `_run_pipeline_sync`)

The figure dicts are emitted next to `de_results` in the worker's result
and reach `save_results` as they are: no non-finite sanitization runs on
the plots path. -/

/-- The data payload of the heatmap trace `sample_correlation_heatmap`
builds: `z` is the `np.corrcoef` matrix verbatim, the axis labels are the
sample names, each truncated to 12 characters when there are more than 50
samples. -/
structure HeatmapTrace where
  z : List (List PyFloat)
  x : List String
  y : List String
deriving DecidableEq

def sampleCorrelationHeatmap (corr : List (List PyFloat))
    (sampleNames : List String) : HeatmapTrace :=
  { z := corr
    x := if sampleNames.length ≤ 50 then sampleNames
      else sampleNames.map (fun s => s.take 12)
    y := if sampleNames.length ≤ 50 then sampleNames
      else sampleNames.map (fun s => s.take 12) }

/-- The slice of `_run_pipeline_sync`'s final result dict that carries
numbers: the plots payload (here its correlation heatmap trace) next to the
serialized DE payload. -/
structure WorkerResult where
  correlation : HeatmapTrace
  de_results : Option (List (List (String × Option PyFloat)))
deriving DecidableEq

/-- Steps 4–6 of `_run_pipeline_sync` for a bulk run, restricted to
`WorkerResult`: the heatmap trace is included verbatim and the DE frame is
serialized through the replace-non-finite path. -/
def assembleBulkWorkerResult (corr : List (List PyFloat))
    (sampleNames : List String)
    (de : Option (List (List (String × Option PyFloat)))) : WorkerResult :=
  { correlation := sampleCorrelationHeatmap corr sampleNames
    de_results := serializeBulkDe de }

/-- A serialized numeric cell is acceptable when it is an explicit missing
value or a finite number — never NaN or an infinity. -/
def okField (v : Option PyFloat) : Prop :=
  ∀ f, v = some f → f.isfinite = true

/-! ## Concrete inputs used by witnesses and counterexamples -/

/-- A 70-cell × 10-gene all-ones frame (no transpose: 70 ≥ 10). -/
def frame70 : Frame where
  colNames := (List.range 10).map (fun j => "g" ++ toString j)
  rows := (List.range 70).map (fun i => ("c" ++ toString i, List.replicate 10 1))

/-- The single-cell result of running `frame70` with trivial oracles. -/
def scR70 : SCResult where
  n_cells_raw := 70
  n_genes_raw := 10
  n_cells_filtered := 70
  n_genes_filtered := 10
  pca_embeddings := []
  umap_embeddings := []
  n_clusters := 2

/-- A 12-gene × 70-cell all-ones frame (transposed by orientation: 12 < 70). -/
def frameWide : Frame where
  colNames := (List.range 70).map (fun j => "c" ++ toString j)
  rows := (List.range 12).map (fun i => ("g" ++ toString i, List.replicate 70 1))

/-- A 10-gene × 4-sample all-ones bulk frame. -/
def bulkFrameA : Frame where
  colNames := ["s1", "s2", "s3", "s4"]
  rows := (List.range 10).map (fun i => ("g" ++ toString i, [1, 1, 1, 1]))

/-- `bulkFrameA` with gene `g0` doubled, so its log-CPM values are
distinguishable by a test oracle. -/
def bulkFrameB : Frame where
  colNames := ["s1", "s2", "s3", "s4"]
  rows := ("g0", [2, 2, 2, 2]) ::
    (List.range 9).map (fun i => ("g" ++ toString (i + 1), [1, 1, 1, 1]))

/-- A test oracle that always succeeds with t = 0 and p = 1/2. -/
def ttHalf : List ℚ → List ℚ → Option (Option ℚ × Option ℚ) :=
  fun _ _ => some (some 0, some (1/2))

/-- A test oracle that raises exactly on gene `g0` of `bulkFrameB`'s log-CPM
values (`2/11 * 1e6` per entry) and succeeds elsewhere. -/
def ttRaiseG0 : List ℚ → List ℚ → Option (Option ℚ × Option ℚ) :=
  fun a _ => if a.getD 0 0 = 2000000 / 11 then none else some (some 0, some (1/2))

/-- The DE table `bulkRun bulkFrameA (some gsms4) id ttHalf false` emits. -/
def deListA : List DERecord :=
  (List.range 10).map
    (fun i =>
      { gene := "g" ++ toString i
        log2fc := 0
        pvalue := 1/2
        t_stat := 0
        mean_a := 100000
        mean_b := 100000
        group_a := "control"
        group_b := "treated"
        padj := 1/2 })

/-- The full result of `bulkRun bulkFrameA (some gsms4) id ttHalf false`. -/
def bulkResA : BulkResult where
  n_genes_raw := 10
  n_samples := 4
  n_genes_filtered := 10
  conditions := [("s1", "control"), ("s2", "control"),
    ("s3", "treated"), ("s4", "treated")]
  de_results := some deListA

/-- A 2-gene × 1-sample frame whose single column totals 0 while holding
nonzero entries of both signs. -/
def frameNeg : Frame where
  colNames := ["s1"]
  rows := [("g1", [1]), ("g2", [-1])]

/-- A 2-gene × 1-sample nonnegative frame with column total 4. -/
def framePos : Frame where
  colNames := ["s1"]
  rows := [("g1", [1]), ("g2", [3])]

/-- GSM metadata for the spec's four-sample test vector. -/
def gsms4 : List GSM :=
  [⟨"s1", "control rep1", []⟩, ⟨"s2", "control rep2", []⟩,
    ⟨"s3", "treated rep1", []⟩, ⟨"s4", "treated rep2", []⟩]

/-- GSM metadata in which only the control keyword family occurs. -/
def gsmsOneFam : List GSM :=
  [⟨"s1", "control rep1", []⟩, ⟨"s2", "control rep2", []⟩,
    ⟨"s3", "normal rep1", []⟩, ⟨"s4", "sample rep2", []⟩]

/-- The pointwise relation carried through the BH stages: the index tag is
unchanged and the value never decreases. -/
def BHLe (a b : ℕ × ℚ) : Prop := a.1 = b.1 ∧ a.2 ≤ b.2

/- Concrete runs are evaluated inside proofs (`decide`); the arithmetic of
`ℚ` is mathematically unchanged by lifting the elaborator-only
`irreducible` marking of its operations. -/
set_option allowUnsafeReducibility true

attribute [local semireducible] Rat.add Rat.mul Rat.inv Rat.sub Rat.neg Rat.div

set_option maxRecDepth 100000

/-! ## Lemmas about the integer square root -/

theorem le_foldr_max (l : List ℕ) (a : ℕ) (h : a ∈ l) : a ≤ l.foldr max 0 := by
  induction l with
  | nil => exact absurd h (List.not_mem_nil a)
  | cons b t ih =>
    rcases List.mem_cons.mp h with rfl | h2
    · exact le_max_left _ _
    · exact le_trans (ih h2) (le_max_right _ _)

theorem foldr_max_le (l : List ℕ) (b : ℕ) (h : ∀ a ∈ l, a ≤ b) :
    l.foldr max 0 ≤ b := by
  induction l with
  | nil => exact Nat.zero_le b
  | cons c t ih =>
    exact max_le (h c (List.mem_cons_self c t))
      (ih (fun a ha => h a (List.mem_cons_of_mem c ha)))

/-- The embedding's executable integer square root is Mathlib's. -/
theorem isqrt_eq_sqrt (m : ℕ) : isqrt m = Nat.sqrt m := by
  unfold isqrt
  apply le_antisymm
  · refine foldr_max_le _ _ ?_
    intro a ha
    have h := (List.mem_filter.mp ha).2
    exact Nat.le_sqrt.mpr (by simpa using h)
  · refine le_foldr_max _ _ ?_
    refine List.mem_filter.mpr ⟨?_, ?_⟩
    · exact List.mem_range.mpr (by have := Nat.sqrt_le_self m; omega)
    · simpa using Nat.sqrt_le m

/-! ## Lemmas about the Benjamini–Hochberg embedding -/

theorem bhScale_length (n k : ℕ) (l : List (ℕ × ℚ)) :
    (bhScale n k l).length = l.length := by
  induction l generalizing k with
  | nil => rfl
  | cons x t ih => simpa [bhScale] using ih (k + 1)

theorem bhScale_map_fst (n k : ℕ) (l : List (ℕ × ℚ)) :
    (bhScale n k l).map Prod.fst = l.map Prod.fst := by
  induction l generalizing k with
  | nil => rfl
  | cons x t ih => simpa [bhScale] using ih (k + 1)

theorem cumMinRev_map_fst (l : List (ℕ × ℚ)) :
    (cumMinRev l).map Prod.fst = l.map Prod.fst := by
  induction l with
  | nil => rfl
  | cons x t ih =>
    obtain ⟨i, q⟩ := x
    rcases h : cumMinRev t with _ | ⟨y, t2⟩
    · rw [h] at ih
      rcases t with _ | ⟨z, t3⟩
      · simp [cumMinRev]
      · simp at ih
    · rw [h] at ih
      simp only [cumMinRev, h, List.map_cons]
      rw [← ih]
      simp

theorem bhScale_le (n : ℕ) :
    ∀ (k : ℕ) (l : List (ℕ × ℚ)), k + l.length ≤ n →
      (∀ x ∈ l, 0 ≤ x.2) → List.Forall₂ BHLe l (bhScale n k l) := by
  intro k l
  induction l generalizing k with
  | nil => intro _ _; exact List.Forall₂.nil
  | cons x t ih =>
    intro hlen hpos
    have hkn : k + 1 ≤ n := by simp only [List.length_cons] at hlen; omega
    refine List.Forall₂.cons ⟨rfl, ?_⟩
      (ih (k + 1) (by simp only [List.length_cons] at hlen; omega)
        (fun y hy => hpos y (List.mem_cons_of_mem x hy)))
    show x.2 ≤ x.2 * (n : ℚ) / ((k : ℚ) + 1)
    have hk1 : (k : ℚ) + 1 ≤ (n : ℚ) := by exact_mod_cast hkn
    have hkpos : (0 : ℚ) < (k : ℚ) + 1 := by positivity
    have hdiv : (1 : ℚ) ≤ (n : ℚ) / ((k : ℚ) + 1) :=
      (one_le_div hkpos).mpr hk1
    have hx : 0 ≤ x.2 := hpos x (List.mem_cons_self x t)
    calc x.2 = x.2 * 1 := by ring
      _ ≤ x.2 * ((n : ℚ) / ((k : ℚ) + 1)) :=
        mul_le_mul_of_nonneg_left hdiv hx
      _ = x.2 * (n : ℚ) / ((k : ℚ) + 1) := by ring

theorem cumMinRev_le (src : List (ℕ × ℚ))
    (hsort : src.Pairwise (fun a b => a.2 ≤ b.2)) :
    ∀ {l : List (ℕ × ℚ)}, List.Forall₂ BHLe src l →
      List.Forall₂ BHLe src (cumMinRev l) := by
  induction src with
  | nil =>
    intro l h
    rcases List.forall₂_nil_left_iff.mp h
    exact List.Forall₂.nil
  | cons s st ih =>
    intro l h
    rcases h with - | @⟨_, c, _, ct, hsc, hst⟩
    have hsort2 := (List.pairwise_cons.mp hsort).2
    have ihst := ih hsort2 hst
    rcases heq : cumMinRev ct with _ | ⟨c2, t2⟩
    · rw [heq] at ihst
      rcases List.forall₂_nil_right_iff.mp ihst
      simp only [cumMinRev, heq]
      exact List.Forall₂.cons hsc List.Forall₂.nil
    · rw [heq] at ihst
      simp only [cumMinRev, heq]
      rcases ihst with - | @⟨s2, _, st2, _, hs2, hst2⟩
      refine List.Forall₂.cons ⟨hsc.1, le_min hsc.2 ?_⟩
        (List.Forall₂.cons hs2 hst2)
      have h12 : s.2 ≤ s2.2 :=
        (List.pairwise_cons.mp hsort).1 s2 (List.mem_cons_self s2 st2)
      exact le_trans h12 hs2.2

theorem clip_le (src : List (ℕ × ℚ)) (hub : ∀ x ∈ src, x.2 ≤ 1) :
    ∀ {l : List (ℕ × ℚ)}, List.Forall₂ BHLe src l →
      List.Forall₂ BHLe src (l.map (fun iq => (iq.1, min iq.2 1))) := by
  induction src with
  | nil =>
    intro l h
    rcases List.forall₂_nil_left_iff.mp h
    exact List.Forall₂.nil
  | cons s st ih =>
    intro l h
    rcases h with - | @⟨_, c, _, ct, hsc, hst⟩
    refine List.Forall₂.cons
      ⟨hsc.1, le_min hsc.2 (hub s (List.mem_cons_self s st))⟩
      (ih (fun x hx => hub x (List.mem_cons_of_mem s hx)) hst)

theorem fdrBH_length (ps : List ℚ) : (fdrBH ps).length = ps.length := by
  simp [fdrBH]

/-- The heart of the DE invariant: BH-adjusted p-values never fall below the
raw p-values they correct, position by position, provided the raw p-values
are genuine probabilities. -/
theorem fdrBH_le (ps : List ℚ) (hb : ∀ p ∈ ps, 0 ≤ p ∧ p ≤ 1) :
    List.Forall₂ (fun p q => p ≤ q) ps (fdrBH ps) := by
  classical
  set sp := List.insertionSort sndLe ps.enum with hsp
  have hperm : sp.Perm ps.enum := List.perm_insertionSort _ _
  have hlen : sp.length = ps.length := by
    rw [hperm.length_eq, List.enum_length]
  have hmem : ∀ x ∈ sp, ps.get? x.1 = some x.2 := by
    intro x hx
    exact List.mem_enum_iff_get?.mp (hperm.mem_iff.mp hx)
  have hmemp : ∀ x ∈ sp, x.2 ∈ ps := by
    intro x hx
    exact List.get?_mem (hmem x hx)
  have hsort : sp.Pairwise (fun a b => a.2 ≤ b.2) :=
    List.sorted_insertionSort sndLe ps.enum
  have hchain : List.Forall₂ BHLe sp
      ((cumMinRev (bhScale ps.length 0 sp)).map (fun iq => (iq.1, min iq.2 1))) := by
    refine clip_le sp (fun x hx => (hb x.2 (hmemp x hx)).2) ?_
    refine cumMinRev_le sp hsort ?_
    exact bhScale_le ps.length 0 sp (by omega)
      (fun x hx => (hb x.2 (hmemp x hx)).1)
  set clipped := (cumMinRev (bhScale ps.length 0 sp)).map
    (fun iq => (iq.1, min iq.2 1)) with hclip
  have hfst : clipped.map Prod.fst = sp.map Prod.fst := by
    rw [hclip]
    have h1 : ((cumMinRev (bhScale ps.length 0 sp)).map
        (fun iq : ℕ × ℚ => (iq.1, min iq.2 1))).map Prod.fst
        = (cumMinRev (bhScale ps.length 0 sp)).map Prod.fst := by
      rw [List.map_map]
      rfl
    rw [h1, cumMinRev_map_fst, bhScale_map_fst]
  rw [List.forall₂_iff_get]
  refine ⟨(fdrBH_length ps).symm, ?_⟩
  intro i h1 h2
  have hval : (fdrBH ps).get ⟨i, h2⟩
      = ((clipped.find? (fun iq => iq.1 = i)).map Prod.snd).getD 1 := by
    simp only [fdrBH, hsp, hclip, List.get_eq_getElem, List.getElem_map,
      List.getElem_range]
  rw [hval]
  have hiin : i ∈ clipped.map Prod.fst := by
    rw [hfst]
    have hpm : (sp.map Prod.fst).Perm (List.range ps.length) := by
      have h := hperm.map Prod.fst
      rwa [List.enum_map_fst] at h
    exact hpm.mem_iff.mpr (List.mem_range.mpr h1)
  obtain ⟨x, hxmem, hxi⟩ := List.mem_map.mp hiin
  have hfind : (clipped.find? (fun iq => iq.1 = i)).isSome := by
    rw [List.find?_isSome]
    exact ⟨x, hxmem, by simp [hxi]⟩
  obtain ⟨y, hy⟩ := Option.isSome_iff_exists.mp hfind
  have hy1 : y.1 = i := by simpa using List.find?_some hy
  have hy2 : y ∈ clipped := List.mem_of_find?_eq_some hy
  obtain ⟨k, hk⟩ := List.mem_iff_get.mp hy2
  have hlen2 : sp.length = clipped.length := hchain.length_eq
  have hks : (k : ℕ) < sp.length := by omega
  have hR : BHLe (sp.get ⟨k, hks⟩) y := by
    have h := (List.forall₂_iff_get.mp hchain).2 k hks k.isLt
    rwa [hk] at h
  have hsmem : sp.get ⟨k, hks⟩ ∈ sp := List.get_mem sp k.1 hks
  have hget : ps.get? i = some (sp.get ⟨k, hks⟩).2 := by
    have h := hmem _ hsmem
    rwa [hR.1, hy1] at h
  have hpsi : ps.get ⟨i, h1⟩ = (sp.get ⟨k, hks⟩).2 := by
    have h := List.get?_eq_get h1
    rw [h] at hget
    simpa using hget
  rw [hy, hpsi]
  simpa using hR.2

/-! ## Lemmas about the DE stage -/

theorem attachPadj_pvalue_le (recs : List DERecord) (bf : Bool)
    (hb : ∀ p ∈ recs.map DERecord.pvalue, 0 ≤ p ∧ p ≤ 1) :
    ∀ r ∈ attachPadj recs bf, r.pvalue ≤ r.padj := by
  intro r hr
  unfold attachPadj at hr
  cases bf with
  | true =>
    simp only [if_pos] at hr
    obtain ⟨a, _, rfl⟩ := List.mem_map.mp hr
    exact le_refl _
  | false =>
    simp only [Bool.false_eq_true, if_neg, not_false_iff] at hr
    obtain ⟨aq, haq, rfl⟩ := List.mem_map.mp hr
    obtain ⟨n, hn⟩ := List.mem_iff_get.mp haq
    have hlf := fdrBH_length (recs.map DERecord.pvalue)
    have hF := fdrBH_le (recs.map DERecord.pvalue) hb
    have hzl : (recs.zip (fdrBH (recs.map DERecord.pvalue))).length
        = recs.length := by
      rw [List.length_zip, hlf, List.length_map, min_self]
    have hn1 : (n : ℕ) < recs.length := by
      rw [← hzl]; exact n.isLt
    have hn2 : (n : ℕ) < (fdrBH (recs.map DERecord.pvalue)).length := by
      rw [hlf, List.length_map]; exact hn1
    have hget : aq = (recs.get ⟨(n : ℕ), hn1⟩,
        (fdrBH (recs.map DERecord.pvalue)).get ⟨(n : ℕ), hn2⟩) := by
      rw [← hn]
      simp only [List.get_eq_getElem, List.getElem_zip]
    have hp := (List.forall₂_iff_get.mp hF).2 n
      (by rw [List.length_map]; exact hn1) hn2
    simp only [List.get_eq_getElem, List.getElem_map] at hp
    show aq.1.pvalue ≤ aq.2
    rw [hget]
    simpa only [List.get_eq_getElem] using hp

theorem mkDeRows_pvalue_bounds (logcpm : Frame) (idx : String → ℕ)
    (tt : List ℚ → List ℚ → Option (Option ℚ × Option ℚ))
    (g1 g2 : String × List String)
    (hp : ∀ a b t p, tt a b = some (t, some p) → 0 ≤ p ∧ p ≤ 1) :
    ∀ r ∈ mkDeRows logcpm idx tt g1 g2, 0 ≤ r.pvalue ∧ r.pvalue ≤ 1 := by
  intro r hr
  unfold mkDeRows at hr
  obtain ⟨row, _, hsome⟩ := List.mem_filterMap.mp hr
  dsimp only at hsome
  rcases htt : tt (g1.2.map (fun s => row.2.getD (idx s) 0))
      (g2.2.map (fun s => row.2.getD (idx s) 0)) with _ | tp
  · rw [htt] at hsome
    exact absurd hsome (by simp)
  · rw [htt] at hsome
    obtain ⟨t, po⟩ := tp
    have hrec := Option.some.inj hsome
    rcases po with _ | p
    · rw [← hrec]
      exact ⟨by norm_num, by norm_num⟩
    · rw [← hrec]
      have h := hp _ _ t p htt
      simpa using h

theorem filterMap_map_eq_filter_map {α β γ : Type} (f : α → Option β)
    (g : β → γ) (h : α → γ) (l : List α)
    (hfg : ∀ a b, f a = some b → g b = h a) :
    (l.filterMap f).map g = (l.filter (fun a => (f a).isSome)).map h := by
  induction l with
  | nil => rfl
  | cons a t ih =>
    rcases hfa : f a with _ | b
    · simp only [List.filterMap_cons, List.filter_cons, hfa, Option.isSome_none,
        Bool.false_eq_true, if_false]
      exact ih
    · simp only [List.filterMap_cons, List.filter_cons, hfa, Option.isSome_some,
        if_true, List.map_cons]
      rw [hfg a b hfa]
      rw [ih]

/-- Records of the sorted DE table are exactly the records before sorting. -/
theorem bulkDeTable_mem (logcpm : Frame) (idx : String → ℕ)
    (tt : List ℚ → List ℚ → Option (Option ℚ × Option ℚ)) (bf : Bool)
    (g1 g2 : String × List String) (r : DERecord) :
    r ∈ bulkDeTable logcpm idx tt bf g1 g2 ↔
      r ∈ attachPadj (mkDeRows logcpm idx tt g1 g2) bf := by
  unfold bulkDeTable
  exact (List.perm_insertionSort _ _).mem_iff

/-- The bulk DE table is sorted ascending by raw p-value. -/
theorem bulkDeTable_sorted (logcpm : Frame) (idx : String → ℕ)
    (tt : List ℚ → List ℚ → Option (Option ℚ × Option ℚ)) (bf : Bool)
    (g1 g2 : String × List String) :
    (bulkDeTable logcpm idx tt bf g1 g2).Pairwise
      (fun a b => a.pvalue ≤ b.pvalue) := by
  unfold bulkDeTable
  exact List.sorted_insertionSort pvalLe _

/-! ## Lemmas about condition inference -/

/-- Whatever `validateConditions` lets through has exactly two distinct
labels, each covering at least 2 samples — or is empty. -/
theorem validateConditions_ok (conds : List (String × String)) :
    validateConditions conds = [] ∨
      (((validateConditions conds).map Prod.snd).dedup.length = 2 ∧
        ∀ lbl ∈ ((validateConditions conds).map Prod.snd).dedup,
          2 ≤ ((validateConditions conds).map Prod.snd).count lbl) := by
  unfold validateConditions
  split_ifs with h1 h2 h3
  · left; exact h1
  · left; rfl
  · left; rfl
  · right
    refine ⟨by omega, ?_⟩
    intro lbl hlbl
    by_contra hlt
    exact h3 (List.any_eq_true.mpr ⟨lbl, hlbl, by simpa using by omega⟩)

theorem inferConditions_ok (names : List String) (gse : Option (List GSM)) :
    inferConditions names gse = [] ∨
      (((inferConditions names gse).map Prod.snd).dedup.length = 2 ∧
        ∀ lbl ∈ ((inferConditions names gse).map Prod.snd).dedup,
          2 ≤ ((inferConditions names gse).map Prod.snd).count lbl) := by
  cases gse with
  | none => left; rfl
  | some gsms => exact validateConditions_ok _

/-! ## Lemmas about filtering and shapes -/

theorem Frame.filterRows_nRows_le (f : Frame) (p : String × List ℚ → Bool) :
    (f.filterRows p).nRows ≤ f.nRows :=
  List.length_filter_le p f.rows

theorem Frame.filterRows_nCols (f : Frame) (p : String × List ℚ → Bool) :
    (f.filterRows p).nCols = f.nCols := rfl

theorem Frame.filterCols_nCols_le (f : Frame) (m : ℕ → Bool) :
    (f.filterCols m).nCols ≤ f.nCols := by
  unfold filterCols nCols
  calc ((f.colNames.enum.filter (fun jc => m jc.1)).map Prod.snd).length
      = (f.colNames.enum.filter (fun jc => m jc.1)).length := List.length_map _ _
    _ ≤ f.colNames.enum.length := List.length_filter_le _ _
    _ = f.colNames.length := List.enum_length

theorem Frame.filterCols_nRows (f : Frame) (m : ℕ → Bool) :
    (f.filterCols m).nRows = f.nRows := by
  unfold filterCols nRows
  exact List.length_map _ _

theorem bulkFilter_shape (d : Frame) :
    (bulkFilter d).nRows ≤ d.nRows ∧ (bulkFilter d).nCols = d.nCols := by
  unfold bulkFilter
  constructor
  · exact le_trans (Frame.filterRows_nRows_le _ _) (Frame.filterRows_nRows_le _ _)
  · rfl

theorem scFilter_shape (d : Frame) :
    (scFilter d).nRows ≤ d.nRows ∧ (scFilter d).nCols ≤ d.nCols := by
  unfold scFilter
  constructor
  · rw [Frame.filterCols_nRows]
    exact Frame.filterRows_nRows_le _ _
  · exact Frame.filterCols_nCols_le _ _

/-! ## Lemmas about normalization -/

theorem sum_map_div_mul (l : List ℚ) (s c : ℚ) :
    (l.map (fun x => x / s * c)).sum = l.sum / s * c := by
  induction l with
  | nil => simp
  | cons x t ih =>
    simp only [List.map_cons, List.sum_cons, ih]
    ring

theorem all_zero_of_sum_zero (l : List ℚ) (h0 : ∀ x ∈ l, 0 ≤ x)
    (hs : l.sum = 0) : ∀ x ∈ l, x = 0 := by
  induction l with
  | nil => simp
  | cons a t ih =>
    have hta : 0 ≤ t.sum :=
      List.sum_nonneg (fun x hx => h0 x (List.mem_cons_of_mem a hx))
    have ha : 0 ≤ a := h0 a (List.mem_cons_self a t)
    rw [List.sum_cons] at hs
    have haz : a = 0 := by linarith
    have htz : t.sum = 0 := by linarith
    intro x hx
    rcases List.mem_cons.mp hx with rfl | hx2
    · exact haz
    · exact ih (fun y hy => h0 y (List.mem_cons_of_mem a hy)) htz x hx2

theorem col_nonneg (f : Frame) (hwf : f.WF)
    (hpos : ∀ r ∈ f.rows, ∀ x ∈ r.2, 0 ≤ x) (j : ℕ) (hj : j < f.nCols) :
    ∀ x ∈ f.col j, 0 ≤ x := by
  intro x hx
  obtain ⟨r, hr, rfl⟩ := List.mem_map.mp hx
  have hlen : j < r.2.length := by rw [hwf r hr]; exact hj
  rw [List.getD_eq_getElem r.2 0 hlen]
  exact hpos r hr _ (List.getElem_mem hlen)

/-- Column `j` of the CPM-normalized frame is column `j` of the input scaled
by `1e6` over the (zero-replaced) column total. -/
theorem cpmNormalize_col (f : Frame) (hwf : f.WF) (j : ℕ) (hj : j < f.nCols) :
    (cpmNormalize f).col j
      = (f.col j).map (fun x =>
          x / (if (f.col j).sum = 0 then 1 else (f.col j).sum) * 1000000) := by
  have hcslen : f.colSums.length = f.nCols := by
    simp [Frame.colSums]
  have hdlen : (f.colSums.map (fun s => if s = 0 then 1 else s)).length
      = f.nCols := by
    rw [List.length_map]; exact hcslen
  have hjd : j < (f.colSums.map (fun s => if s = 0 then 1 else s)).length := by
    rw [hdlen]; exact hj
  have hcs : f.colSums.getD j 0 = (f.col j).sum := by
    rw [List.getD_eq_getElem f.colSums 0 (by rw [hcslen]; exact hj)]
    simp only [Frame.colSums, List.getElem_map, List.getElem_range]
  have hd : (f.colSums.map (fun s => if s = 0 then 1 else s)).getD j 1
      = (if (f.col j).sum = 0 then 1 else (f.col j).sum) := by
    rw [List.getD_eq_getElem _ 1 hjd]
    rw [List.getElem_map]
    rw [← hcs, List.getD_eq_getElem f.colSums 0 (by rw [hcslen]; exact hj)]
  unfold cpmNormalize Frame.col
  simp only [List.map_map]
  refine List.map_congr_left ?_
  intro r hr
  have hrlen : j < r.2.length := by rw [hwf r hr]; exact hj
  have hzlen : j < ((r.2.zip (f.colSums.map (fun s => if s = 0 then 1 else s))).map
      (fun xs => xs.1 / xs.2 * 1000000)).length := by
    rw [List.length_map, List.length_zip, hdlen]
    omega
  show ((r.2.zip (f.colSums.map (fun s => if s = 0 then 1 else s))).map
      (fun xs => xs.1 / xs.2 * 1000000)).getD j 0 = _
  rw [List.getD_eq_getElem _ 0 hzlen]
  rw [List.getElem_map, List.getElem_zip]
  dsimp only [Function.comp_apply]
  have hfold : (List.map (fun r => r.2.getD j 0) f.rows).sum = (f.col j).sum := rfl
  rw [hfold, ← hd, List.getD_eq_getElem _ 1 hjd,
    ← List.getD_eq_getElem r.2 0 hrlen]

/-- Each column of the CPM output sums to 1e6, except that an all-entries
nonnegative column with total 0 stays identically 0. -/
theorem cpmNormalize_col_sum (f : Frame) (hwf : f.WF)
    (hpos : ∀ r ∈ f.rows, ∀ x ∈ r.2, 0 ≤ x) (j : ℕ) (hj : j < f.nCols) :
    ((cpmNormalize f).col j).sum = 1000000 ∨
      ((f.col j).sum = 0 ∧ ∀ x ∈ (cpmNormalize f).col j, x = 0) := by
  rw [cpmNormalize_col f hwf j hj]
  by_cases hs : (f.col j).sum = 0
  · right
    refine ⟨hs, ?_⟩
    intro x hx
    obtain ⟨x0, hx0, rfl⟩ := List.mem_map.mp hx
    have hz := all_zero_of_sum_zero (f.col j) (col_nonneg f hwf hpos j hj) hs x0 hx0
    rw [hz]
    norm_num
  · left
    rw [sum_map_div_mul, if_neg hs, div_self hs, one_mul]

/-- The row version for the single-cell pipeline: row totals are scaled to
1e4, and a nonnegative row with total 0 stays identically 0. -/
theorem scNormalize_row_sum (f : Frame)
    (hpos : ∀ r ∈ f.rows, ∀ x ∈ r.2, 0 ≤ x) :
    ∀ r ∈ f.rows,
      ((r.2.map (fun x => x / (if r.2.sum = 0 then 1 else r.2.sum) * 10000)).sum
          = 10000 ∧ r.2.sum ≠ 0) ∨
        (r.2.sum = 0 ∧
          ∀ x ∈ r.2.map (fun x => x / (if r.2.sum = 0 then 1 else r.2.sum) * 10000),
            x = 0) := by
  intro r hr
  by_cases hs : r.2.sum = 0
  · right
    refine ⟨hs, ?_⟩
    intro x hx
    obtain ⟨x0, hx0, rfl⟩ := List.mem_map.mp hx
    rw [all_zero_of_sum_zero r.2 (hpos r hr) hs x0 hx0]
    norm_num
  · left
    rw [sum_map_div_mul, if_neg hs, div_self hs, one_mul]
    exact ⟨rfl, hs⟩

/-- Success of a bulk run is success of its QC stage: the DE stage and the
oracles never raise. -/
theorem bulkRun_isOk (e : Frame) (gse : Option (List GSM)) (lg : ℚ → ℚ)
    (tt : List ℚ → List ℚ → Option (Option ℚ × Option ℚ)) (bf : Bool) :
    (bulkRun e gse lg tt bf).isOk = (bulkQC e).isOk := by
  unfold bulkRun
  rcases bulkQC e with e1 | data <;> rfl

/-- An `Except` whose `toOption` is `some` is that `ok`. -/
theorem eq_ok_of_toOption {ε α : Type} {x : Except ε α} {a : α}
    (h : x.toOption = some a) : x = .ok a := by
  cases x with
  | error e => simp [Except.toOption] at h
  | ok v =>
    simp only [Except.toOption, Option.some.injEq] at h
    rw [h]

/-! ## Claim theorems -/

/-- C2 counterexample: a 10-gene × 4-sample bulk run keeps all 4 samples
(fewer than 10) after QC and completes without raising, so the bulk
pipeline does not raise on a surviving sample count below 10. -/
theorem bulk_low_sample_no_raise_cex :
    (bulkRun bulkFrameA none id (fun _ _ => none) false).toOption.map
        BulkResult.n_samples = some 4 ∧ 4 < 10 := by
  constructor
  · decide
  · norm_num

/-- C2 (amended): both QC filters only remove (post-filter feature and
sample counts never exceed pre-filter counts, and bulk never drops
samples); the single-cell pipeline raises iff fewer than 10 cells or fewer
than 10 genes survive, while the bulk pipeline raises iff fewer than 10
genes survive — the bulk sample count is never checked. -/
theorem qc_filter_monotone_raise (d : Frame) :
    ((bulkFilter d).nRows ≤ d.nRows ∧ (bulkFilter d).nCols = d.nCols) ∧
      ((scFilter d).nRows ≤ d.nRows ∧ (scFilter d).nCols ≤ d.nCols) ∧
      ((bulkQC d).isOk = false ↔ (bulkFilter d).nRows < 10) ∧
      ((scQC d).isOk = false ↔
        ((scFilter d).nRows < 10 ∨ (scFilter d).nCols < 10)) ∧
      (∀ f, bulkQC d = .ok f → f = bulkFilter d) ∧
      (∀ f, scQC d = .ok f → f = scFilter d) := by
  refine ⟨bulkFilter_shape d, scFilter_shape d, ?_, ?_, ?_, ?_⟩
  · unfold bulkQC
    split_ifs with h <;> simp [Except.isOk, Except.toBool, h]
  · unfold scQC
    split_ifs with h <;> simp [Except.isOk, Except.toBool, h]
  · intro f hf
    unfold bulkQC at hf
    split_ifs at hf with h
    exact (Except.ok.inj hf).symm
  · intro f hf
    unfold scQC at hf
    split_ifs at hf with h
    exact (Except.ok.inj hf).symm

theorem qc_filter_monotone_raise_witness :
    (bulkFilter bulkFrameA).nRows ≤ bulkFrameA.nRows ∧
      ((bulkQC bulkFrameA).isOk = false ↔ (bulkFilter bulkFrameA).nRows < 10) := by
  have h := qc_filter_monotone_raise bulkFrameA
  exact ⟨h.1.1, h.2.2.1⟩

/-- C3 counterexample: on a column holding `[1, -1]` the total is 0, the
zero-total divisor is replaced by 1, and the normalized column is
`[1e6, -1e6]` — not all-zero as the claim asserts of every zero-total
column. -/
theorem cpm_zero_total_negative_cex :
    (frameNeg.col 0).sum = 0 ∧
      (cpmNormalize frameNeg).col 0 = [1000000, -1000000] ∧
      ¬ (∀ x ∈ (cpmNormalize frameNeg).col 0, x = 0) := by
  refine ⟨by decide, by decide, ?_⟩
  intro h
  have h1 := h 1000000 (by decide)
  norm_num at h1

/-- C3 (amended): on matrices with nonnegative entries, normalization
scales every bulk column to total 1e6 and every single-cell row to total
1e4 — except that a zero-total column/row (necessarily all-zero when
entries are nonnegative) is divided by 1 and stays identically zero, and
the divisor is never zero. -/
theorem normalize_sum_target (f : Frame) (hwf : f.WF)
    (hpos : ∀ r ∈ f.rows, ∀ x ∈ r.2, 0 ≤ x) :
    (∀ j, j < f.nCols →
        (((cpmNormalize f).col j).sum = 1000000 ∨
          ((f.col j).sum = 0 ∧ ∀ x ∈ (cpmNormalize f).col j, x = 0))) ∧
      List.Forall₂
        (fun orig new : String × List ℚ =>
          new.2.sum = 10000 ∨ (orig.2.sum = 0 ∧ ∀ x ∈ new.2, x = 0))
        f.rows (scNormalize f).rows := by
  constructor
  · intro j hj
    exact cpmNormalize_col_sum f hwf hpos j hj
  · unfold scNormalize
    rw [List.forall₂_map_right_iff]
    rw [List.forall₂_same]
    intro r hr
    rcases scNormalize_row_sum f hpos r hr with ⟨hsum, _⟩ | ⟨hz, hall⟩
    · left; exact hsum
    · right; exact ⟨hz, hall⟩

/-- C1: on every completed bulk run, DE records exist only when condition
inference yields exactly two distinct groups, each covering at least 2
samples; every emitted record satisfies `pvalue ≤ padj`; and the emitted
list is sorted ascending by raw p-value and holds at most 500 records
(truncation preserves the order). -/
theorem bulk_de_stage_invariants (e : Frame) (gse : Option (List GSM))
    (lg : ℚ → ℚ) (tt : List ℚ → List ℚ → Option (Option ℚ × Option ℚ))
    (bf : Bool) (r : BulkResult) (l : List DERecord)
    (hp : ∀ a b t p, tt a b = some (t, some p) → 0 ≤ p ∧ p ≤ 1)
    (hok : bulkRun e gse lg tt bf = .ok r)
    (hde : r.de_results = some l) :
    ((r.conditions.map Prod.snd).dedup.length = 2 ∧
        ∀ lbl ∈ (r.conditions.map Prod.snd).dedup,
          2 ≤ (r.conditions.map Prod.snd).count lbl) ∧
      (∀ rec ∈ l, rec.pvalue ≤ rec.padj) ∧
      l.Pairwise (fun a b => a.pvalue ≤ b.pvalue) ∧
      l.length ≤ 500 := by
  unfold bulkRun at hok
  rcases hqc : bulkQC e with e1 | data
  · rw [hqc] at hok
    exact absurd hok (by simp)
  · rw [hqc] at hok
    simp only [Except.ok.injEq] at hok
    subst hok
    simp only at hde ⊢
    unfold bulkDeStage at hde
    by_cases hgate : inferConditions e.colNames gse ≠ [] ∧
        ((inferConditions e.colNames gse).map Prod.snd).dedup.length = 2
    · rw [if_pos hgate] at hde
      rcases hgs : groupsOf (inferConditions e.colNames gse) with _ | ⟨g1, rest⟩
      · rw [hgs] at hde
        exact absurd hde (by simp)
      · rcases rest with _ | ⟨g2, rest2⟩
        · rw [hgs] at hde
          exact absurd hde (by simp)
        · rw [hgs] at hde
          dsimp only at hde
          by_cases hsz : 2 ≤ g1.2.length ∧ 2 ≤ g2.2.length
          · rw [if_pos hsz] at hde
            by_cases hne : mkDeRows ((cpmNormalize data).mapEntries lg)
                (fun s => e.colNames.indexOf s) tt g1 g2 ≠ []
            · rw [if_pos hne, Option.some.injEq] at hde
              have hcount : ((inferConditions e.colNames gse).map Prod.snd).dedup.length = 2 ∧
                  ∀ lbl ∈ ((inferConditions e.colNames gse).map Prod.snd).dedup,
                    2 ≤ ((inferConditions e.colNames gse).map Prod.snd).count lbl := by
                rcases inferConditions_ok e.colNames gse with hnil | hok2
                · exact absurd hnil hgate.1
                · exact hok2
              refine ⟨hcount, ?_, ?_, ?_⟩
              · intro rec hrec
                have hmem : rec ∈ bulkDeTable ((cpmNormalize data).mapEntries lg)
                    (fun s => e.colNames.indexOf s) tt bf g1 g2 :=
                  List.Sublist.mem (hde ▸ hrec) (List.take_sublist 500 _)
                have hmem2 := (bulkDeTable_mem _ _ _ _ _ _ rec).mp hmem
                refine attachPadj_pvalue_le _ bf ?_ rec hmem2
                intro p hpmem
                obtain ⟨rec2, hrec2, rfl⟩ := List.mem_map.mp hpmem
                exact mkDeRows_pvalue_bounds _ _ tt g1 g2 hp rec2 hrec2
              · rw [← hde]
                exact List.Pairwise.sublist (List.take_sublist 500 _)
                  (bulkDeTable_sorted _ _ tt bf g1 g2)
              · rw [← hde]
                exact List.length_take_le _ _
            · rw [if_neg hne] at hde
              exact absurd hde (by simp)
          · rw [if_neg hsz] at hde
            exact absurd hde (by simp)
    · rw [if_neg hgate] at hde
      exact absurd hde (by simp)

theorem bulk_de_stage_invariants_witness :
    bulkRun bulkFrameA (some gsms4) id ttHalf false = .ok bulkResA ∧
      bulkResA.de_results = some deListA ∧
      (∀ rec ∈ deListA, rec.pvalue ≤ rec.padj) ∧
      deListA.Pairwise (fun a b => a.pvalue ≤ b.pvalue) := by
  have hok : bulkRun bulkFrameA (some gsms4) id ttHalf false = .ok bulkResA :=
    eq_ok_of_toOption (by decide)
  have hde : bulkResA.de_results = some deListA := rfl
  have hp : ∀ a b t p, ttHalf a b = some (t, some p) → 0 ≤ p ∧ p ≤ 1 := by
    intro a b t p h
    simp only [ttHalf, Option.some.injEq, Prod.mk.injEq] at h
    rw [← h.2]
    norm_num
  have h := bulk_de_stage_invariants bulkFrameA (some gsms4) id ttHalf false
    bulkResA deListA hp hok hde
  exact ⟨hok, hde, h.2.1, h.2.2.1⟩

theorem normalize_sum_target_witness :
    ((cpmNormalize framePos).col 0).sum = 1000000 ∧
      ((cpmNormalize frameNeg).col 0).sum = 0 := by
  have h := normalize_sum_target framePos (by decide) (by decide)
  rcases h.1 0 (by decide) with hs | ⟨hz, _⟩
  · refine ⟨hs, by decide⟩
  · exact absurd hz (by decide)

/-- C7: `DataDetector.detect` computes a score starting at 0 with +3 for a
single-cell keyword match, +2 if sample count > 500 else +1 if > 100 else −2
if ≤ 30, and +1 if the zero fraction exceeds 0.7 (skipped when that
computation fails), and returns `single_cell` iff the final score is ≥ 2,
else `bulk` — a deterministic function of the three signals alone. -/
theorem detect_score_decision (kw : Bool) (n : ℕ) (sp : Option ℚ) :
    (detect kw n sp = "single_cell" ↔ 2 ≤ detectScore kw n sp) ∧
      (detect kw n sp = "bulk" ↔ detectScore kw n sp < 2) := by
  have hne : ("single_cell" : String) ≠ "bulk" := by decide
  rcases sp with _ | s <;> cases kw <;>
    · simp only [detect, detectScore]
      split_ifs <;> simp_all

/-- C4 counterexample: on `bulkFrameB`, gene `g0`'s test raises; the run
completes, but the emitted DE table holds exactly the other nine genes —
`g0` is dropped, not kept with p-value 1.0. -/
theorem raised_test_feature_dropped_cex :
    ttRaiseG0 [2000000/11, 2000000/11] [2000000/11, 2000000/11] = none ∧
      (bulkRun bulkFrameB (some gsms4) id ttRaiseG0 false).toOption.map
          (fun r => r.de_results.map (fun l => l.map DERecord.gene))
        = some (some ["g1", "g2", "g3", "g4", "g5", "g6", "g7", "g8", "g9"]) ∧
      ¬ "g0" ∈ ["g1", "g2", "g3", "g4", "g5", "g6", "g7", "g8", "g9"] := by
  refine ⟨by decide, by decide, by decide⟩

/-- C4 (amended): in the bulk DE loop and in the single-cell marker loop
alike, a per-feature test that raises is caught locally and the feature is
omitted from the DE table (the table's genes are exactly the genes whose
test call returned); a test that returns a NaN p-value keeps the feature
with p-value defaulted to 1.0; and neither the test oracle nor the
correction-failure switch can change the run's terminal status. -/
theorem test_failure_handling (logcpm : Frame) (idx : String → ℕ)
    (tt : List ℚ → List ℚ → Option (Option ℚ × Option ℚ))
    (g1 g2 : String × List String) (e : Frame) (gse : Option (List GSM))
    (lg : ℚ → ℚ) (tt2 : List ℚ → List ℚ → Option (Option ℚ × Option ℚ))
    (bf bf2 : Bool) (c : String) (topGenes : List String)
    (cv ov : String → List ℚ) (fc : String → ℚ) :
    ((mkDeRows logcpm idx tt g1 g2).map DERecord.gene
        = (logcpm.rows.filter
            (fun row => (tt (g1.2.map (fun s => row.2.getD (idx s) 0))
              (g2.2.map (fun s => row.2.getD (idx s) 0))).isSome)).map Prod.fst) ∧
      (∀ row ∈ logcpm.rows, ∀ t,
        tt (g1.2.map (fun s => row.2.getD (idx s) 0))
            (g2.2.map (fun s => row.2.getD (idx s) 0)) = some (t, none) →
          ∃ rec ∈ mkDeRows logcpm idx tt g1 g2,
            rec.gene = row.1 ∧ rec.pvalue = 1) ∧
      ((scMarkerRows c topGenes cv ov fc tt).map SCMarkerRecord.gene
        = (topGenes.take 10).filter (fun g => (tt (cv g) (ov g)).isSome)) ∧
      (∀ gene ∈ topGenes.take 10, ∀ t, tt (cv gene) (ov gene) = some (t, none) →
        ∃ rec ∈ scMarkerRows c topGenes cv ov fc tt,
          rec.gene = gene ∧ rec.pvalue = 1) ∧
      (bulkRun e gse lg tt bf).isOk = (bulkRun e gse lg tt2 bf2).isOk := by
  refine ⟨?_, ?_, ?_, ?_, ?_⟩
  · unfold mkDeRows
    generalize logcpm.rows = l
    induction l with
    | nil => rfl
    | cons a t ih =>
      simp only [List.filterMap_cons, List.filter_cons]
      rcases htt : tt (g1.2.map (fun s => a.2.getD (idx s) 0))
          (g2.2.map (fun s => a.2.getD (idx s) 0)) with _ | tp
      · simp only [htt, Option.isSome_none, Bool.false_eq_true, if_false]
        exact ih
      · simp only [htt, Option.isSome_some, if_true, List.map_cons]
        rw [ih]
  · intro row hrow t htt
    refine ⟨{ gene := row.1
              log2fc := round4 (listMean (g2.2.map (fun s => row.2.getD (idx s) 0))
                - listMean (g1.2.map (fun s => row.2.getD (idx s) 0)))
              pvalue := 1
              t_stat := t.getD 0
              mean_a := round4 (listMean (g1.2.map (fun s => row.2.getD (idx s) 0)))
              mean_b := round4 (listMean (g2.2.map (fun s => row.2.getD (idx s) 0)))
              group_a := g1.1
              group_b := g2.1
              padj := 0 },
      List.mem_filterMap.mpr ⟨row, hrow, ?_⟩, rfl, rfl⟩
    dsimp only
    rw [htt]
    rfl
  · unfold scMarkerRows
    generalize topGenes.take 10 = l
    induction l with
    | nil => rfl
    | cons a t ih =>
      simp only [List.filterMap_cons, List.filter_cons]
      rcases htt : tt (cv a) (ov a) with _ | tp
      · simp only [htt, Option.isSome_none, Bool.false_eq_true, if_false]
        exact ih
      · simp only [htt, Option.isSome_some, if_true, List.map_cons]
        rw [ih]
  · intro gene hgene t htt
    refine ⟨{ cluster := c
              gene := gene
              log2fc := fc gene
              pvalue := 1
              score := t.getD 0 },
      List.mem_filterMap.mpr ⟨gene, hgene, ?_⟩, rfl, rfl⟩
    dsimp only
    rw [htt]
    rfl
  · rw [bulkRun_isOk, bulkRun_isOk]

/-- C8 (amended): `_safe_float` maps `None` and every non-finite float to
`None` and rounds finite floats, so every numeric field of every record
`_extract_sc_de_genes` emits is an explicit missing value or finite, and
the bulk serialization path replaces every non-finite cell of the emitted
DE frame by `None` — but only the `de_results` payload is sanitized: the
plots payload is included in the externalized result verbatim, and on the
dict result the bundled single-cell pipeline returns,
`_extract_sc_de_genes` raises `AttributeError` instead of emitting
records. -/
theorem serialized_de_no_nonfinite :
    (∀ v : Option PyFloat, okField (safeFloat v)) ∧
      (∀ f : PyFloat, f.isfinite = false → safeFloat (some f) = none) ∧
      (∀ u recs, extractScDeGenes u = .ok (some recs) → ∀ rec ∈ recs,
        okField rec.score ∧ okField rec.pvalue ∧
          okField rec.padj ∧ okField rec.log2fc) ∧
      extractScDeGenes .dictResult = .error "AttributeError: no attribute uns" ∧
      (∀ de out, serializeBulkDe de = some out →
        ∀ row ∈ out, ∀ kv ∈ row, okField kv.2) ∧
      (∀ corr names de,
        (assembleBulkWorkerResult corr names de).correlation.z = corr ∧
          (assembleBulkWorkerResult corr names de).de_results
            = serializeBulkDe de) := by
  have hsafe : ∀ v : Option PyFloat, okField (safeFloat v) := by
    intro v f hf
    rcases v with _ | w
    · simp [safeFloat] at hf
    · rcases w with _ | _ | _ | q <;> simp [safeFloat] at hf <;> rw [← hf] <;> rfl
  refine ⟨hsafe, ?_, ?_, rfl, ?_, fun corr names de => ⟨rfl, rfl⟩⟩
  · intro f hf
    rcases f with _ | _ | _ | q
    · rfl
    · rfl
    · rfl
    · simp [PyFloat.isfinite] at hf
  · intro u recs hrecs rec hrec
    rcases u with _ | rgg
    · simp [extractScDeGenes] at hrecs
    · rcases rgg with _ | groups
      · simp [extractScDeGenes] at hrecs
      · unfold extractScDeGenes at hrecs
        rw [Except.ok.injEq] at hrecs
        split_ifs at hrecs
        rw [Option.some.injEq] at hrecs
        rw [← hrecs] at hrec
        obtain ⟨g, _, hmem⟩ := List.mem_flatMap.mp hrec
        obtain ⟨i, _, hrec2⟩ := List.mem_map.mp hmem
        rw [← hrec2]
        exact ⟨hsafe _, hsafe _, hsafe _, hsafe _⟩
  · intro de out hout row hrow kv hkv
    rcases de with _ | rows
    · simp [serializeBulkDe] at hout
    · unfold serializeBulkDe at hout
      dsimp only at hout
      split_ifs at hout
      rw [Option.some.injEq] at hout
      rw [← hout] at hrow
      obtain ⟨row0, _, hrow2⟩ := List.mem_map.mp hrow
      rw [← hrow2] at hkv
      obtain ⟨kv0, _, hkv2⟩ := List.mem_map.mp hkv
      rw [← hkv2]
      intro f hf
      rcases hv : kv0.2 with _ | w
      · rw [hv] at hf
        simp [replaceNonfinite] at hf
      · rcases w with _ | _ | _ | q <;> rw [hv] at hf <;>
          simp [replaceNonfinite] at hf
        rw [← hf]
        rfl

/-- C8 counterexample: a non-finite correlation value (as `np.corrcoef`
yields for a zero-variance sample) reaches the externalized result's plots
payload unchanged, even while the DE payload of the same result is
sanitized — so non-finite values do appear in the externalized result. -/
theorem plots_nonfinite_passthrough_cex :
    ((assembleBulkWorkerResult [[.fin 1, .nan], [.nan, .fin 1]] ["s1", "s2"]
          (some [[("pvalue", some (.nan))]])).correlation.z.any
        (fun row => row.any (fun v => !v.isfinite))) = true ∧
      (assembleBulkWorkerResult [[.fin 1, .nan], [.nan, .fin 1]] ["s1", "s2"]
          (some [[("pvalue", some (.nan))]])).de_results
        = some [[("pvalue", none)]] := by
  constructor
  · decide
  · rfl

/-- C5 counterexample: a run with 70 surviving cells yields 2 clusters
(`int` truncates the square root of 7 to 2), while the spec's formula
`clamp(round(sqrt(70 / 10)), 2, 20)` yields 3. -/
theorem cluster_count_round_cex :
    (scRun frame70 id (fun _ => []) none).toOption.map SCResult.n_clusters
        = some 2 ∧
      nClustersSpec 70 = 3 := by
  constructor
  · decide
  · decide

/-- C5 (amended): the cluster count of a completed single-cell run equals
`min(max(2, floor(sqrt(n_cells_filtered / 10))), 20)` — truncation, not
rounding, of the square root — and always lies within [2, 20]; in
particular it is 2 at 5 cells, 3 at 100 cells and 20 at 100000 cells. -/
theorem cluster_count_floor_bounds (e : Frame) (lg : ℚ → ℚ)
    (pca : Frame → List (List ℚ)) (u : Option (List (List ℚ))) (r : SCResult)
    (hok : scRun e lg pca u = .ok r) :
    r.n_clusters = min (max 2 (isqrt (r.n_cells_filtered / 10))) 20 ∧
      2 ≤ r.n_clusters ∧ r.n_clusters ≤ 20 ∧
      nClusters 5 = 2 ∧ nClusters 100 = 3 ∧ nClusters 100000 = 20 := by
  unfold scRun at hok
  rcases hqc : scQC (scOrient e) with e1 | d
  · rw [hqc] at hok
    exact absurd hok (by simp)
  · rw [hqc] at hok
    simp only [Except.ok.injEq] at hok
    rw [← hok]
    refine ⟨rfl, ?_, ?_, by decide, by decide, ?_⟩
    · show 2 ≤ nClusters d.nRows
      unfold nClusters
      omega
    · show nClusters d.nRows ≤ 20
      unfold nClusters
      omega
    · show nClusters 100000 = 20
      unfold nClusters
      have h : 20 ≤ isqrt (100000 / 10) := by
        rw [isqrt_eq_sqrt]
        exact Nat.le_sqrt.mpr (by norm_num)
      omega

theorem cluster_count_floor_bounds_witness :
    scRun frame70 id (fun _ => []) none = .ok scR70 ∧
      2 ≤ scR70.n_clusters ∧ scR70.n_clusters ≤ 20 := by
  have hok : scRun frame70 id (fun _ => []) none = .ok scR70 := rfl
  have h := cluster_count_floor_bounds frame70 id (fun _ => []) none scR70 hok
  exact ⟨hok, h.2.1, h.2.2.1⟩

/-- C9: a failing non-linear embedding never changes whether the single-cell
run succeeds, and on failure the emitted embedding is the first two PCA
dimensions (equal to the result's own `pca_embeddings`). -/
theorem umap_failure_fallback (e : Frame) (lg : ℚ → ℚ)
    (pca : Frame → List (List ℚ)) (u : List (List ℚ)) :
    (scRun e lg pca none).isOk = (scRun e lg pca (some u)).isOk ∧
      ∀ r : SCResult, scRun e lg pca none = .ok r →
        r.umap_embeddings = r.pca_embeddings := by
  constructor
  · unfold scRun
    rcases hqc : scQC (scOrient e) with e1 | d <;> rfl
  · intro r hr
    unfold scRun at hr
    rcases hqc : scQC (scOrient e) with e1 | d
    · rw [hqc] at hr
      exact absurd hr (by simp)
    · rw [hqc] at hr
      simp only [Except.ok.injEq] at hr
      rw [← hr]
      rfl

theorem umap_failure_fallback_witness :
    (scRun frame70 id (fun _ => []) none).isOk
        = (scRun frame70 id (fun _ => []) (some [[3, 4]])).isOk ∧
      scR70.umap_embeddings = scR70.pca_embeddings := by
  have h := umap_failure_fallback frame70 id (fun _ => []) [[3, 4]]
  exact ⟨h.1, h.2 scR70 rfl⟩

/-- C10: `SingleCellPipeline.run` transposes its input iff it has strictly
fewer rows than columns (rows win ties), so the axis used as cells — and
reported as `n_cells_raw` on a completed run — always counts
`max(rows, columns)` labels. -/
theorem sc_orientation_max_axis (e : Frame) (lg : ℚ → ℚ)
    (pca : Frame → List (List ℚ)) (u : Option (List (List ℚ))) :
    (e.nRows < e.nCols → scOrient e = e.transpose) ∧
      (e.nCols ≤ e.nRows → scOrient e = e) ∧
      (scOrient e).nRows = max e.nRows e.nCols ∧
      ∀ r : SCResult, scRun e lg pca u = .ok r →
        r.n_cells_raw = max e.nRows e.nCols := by
  have htr : e.transpose.nRows = e.nCols := by
    unfold Frame.transpose Frame.nRows Frame.nCols
    rw [List.length_map, List.enum_length]
  have h3 : (scOrient e).nRows = max e.nRows e.nCols := by
    unfold scOrient
    split_ifs with hlt
    · rw [htr]; omega
    · unfold Frame.nRows at *; omega
  refine ⟨?_, ?_, h3, ?_⟩
  · intro h; unfold scOrient; rw [if_pos h]
  · intro h; unfold scOrient; rw [if_neg (by omega)]
  · intro r hr
    unfold scRun at hr
    rcases hqc : scQC (scOrient e) with e1 | d
    · rw [hqc] at hr
      exact absurd hr (by simp)
    · rw [hqc] at hr
      simp only [Except.ok.injEq] at hr
      rw [← hr]
      exact h3

/-- C6: condition inference labels a sample by the control family first and
the treated family second (first matching family wins), and a non-empty
assignment is accepted only with exactly two distinct labels, each covering
at least 2 samples — otherwise it is empty and DE is skipped.  On the
spec's four metadata texts it yields two groups of size 2; with only one
family present it yields no assignment; a text matching both families is
labelled `control`. -/
theorem infer_conditions_gating (names : List String) (gse : Option (List GSM)) :
    (inferConditions names gse = [] ∨
        (((inferConditions names gse).map Prod.snd).dedup.length = 2 ∧
          ∀ lbl ∈ ((inferConditions names gse).map Prod.snd).dedup,
            2 ≤ ((inferConditions names gse).map Prod.snd).count lbl)) ∧
      (∀ text, searchControl text = true → matchFamilies text = some "control") ∧
      inferConditions ["s1", "s2", "s3", "s4"] (some gsms4)
        = [("s1", "control"), ("s2", "control"),
            ("s3", "treated"), ("s4", "treated")] ∧
      inferConditions ["s1", "s2", "s3", "s4"] (some gsmsOneFam) = [] ∧
      matchFamilies "control tumor".toList = some "control" := by
  refine ⟨inferConditions_ok names gse, ?_, by decide, by decide, by decide⟩
  intro text h
  unfold matchFamilies
  rw [if_pos h]

theorem sc_orientation_max_axis_witness :
    scOrient frameWide = frameWide.transpose ∧
      (scOrient frameWide).nRows = 70 ∧
      (scRun frameWide id (fun _ => []) none).toOption.map SCResult.n_cells_raw
        = some 70 := by
  have h := sc_orientation_max_axis frameWide id (fun _ => []) none
  refine ⟨h.1 (by decide), ?_, ?_⟩
  · rw [h.2.2.1]; rfl
  · decide

end Geolyze
